import Mathlib

/-!
Verification of the latticequeries library: a shallow embedding of
src/lattices.rs, src/hivecs.rs and src/hiqueries.rs.

Rust panics are modelled as `none` of an `Option` result; machine integers
(u32/u64 payloads of the free lattices) are `Nat` with explicit `< 2^w`
bounds where the bitwise complement matters.  The `Lattice`/`PartialOrd`
trait dictionary of the Rust code becomes the explicit operation record
`Ops`; `T: Ord` instantiations (the blanket `impl<T: Ord> Lattice for T`
with `join = max`, `meet = min`) are given for `Nat` and `Bool`.
-/

set_option maxRecDepth 4000

/-- Trait dictionary for `T : Lattice + PartialOrd + PartialEq`:
`pcmp` is `partial_cmp`, `beq` is `==`. -/
structure Ops (T : Type) where
  pcmp : T → T → Option Ordering
  join : T → T → T
  meet : T → T → T
  beq : T → T → Bool

variable {T : Type} {A : Type}

/-- Rust `PartialOrd::ge`: `partial_cmp` is `Greater` or `Equal`. -/
def pge (ops : Ops T) (a b : T) : Bool :=
  match ops.pcmp a b with
  | some Ordering.gt => true
  | some Ordering.eq => true
  | _ => false

/-- Rust `PartialOrd::le`: `partial_cmp` is `Less` or `Equal`. -/
def ple (ops : Ops T) (a b : T) : Bool :=
  match ops.pcmp a b with
  | some Ordering.lt => true
  | some Ordering.eq => true
  | _ => false

/-- `LatticeRange<T>` from src/lattices.rs: an interval with a join-side
`top` and a meet-side `bottom`. -/
structure LatticeRange (T : Type) where
  top : T
  bottom : T
deriving DecidableEq

/-- `LatticeRange::new(top, bottom)`. -/
def LatticeRange.new (top bottom : T) : LatticeRange T := ⟨top, bottom⟩

/-- `LatticeRange::singleton(x)`: `top = bottom = x`. -/
def LatticeRange.singleton (x : T) : LatticeRange T := ⟨x, x⟩

/-- `LatticeRange::isempty`, literally `self.top >= self.bottom`. -/
def LatticeRange.isempty (ops : Ops T) (r : LatticeRange T) : Bool :=
  pge ops r.top r.bottom

/-- `LatticeRange::contains`, literally `self.top >= *x && self.bottom >= *x`. -/
def LatticeRange.contains (ops : Ops T) (r : LatticeRange T) (x : T) : Bool :=
  pge ops r.top x && pge ops r.bottom x

/-- `LatticeRange::expandby`: `top.join(x)` and `bottom.meet(x)`. -/
def LatticeRange.expandby (ops : Ops T) (r : LatticeRange T) (x : T) : LatticeRange T :=
  ⟨ops.join r.top x, ops.meet r.bottom x⟩

/-- `LatticeRange::unite`: join of tops, meet of bottoms. -/
def LatticeRange.unite (ops : Ops T) (a b : LatticeRange T) : LatticeRange T :=
  ⟨ops.join a.top b.top, ops.meet a.bottom b.bottom⟩

/-- `LatticeRange::intersect`: meet of tops, join of bottoms. -/
def LatticeRange.intersect (ops : Ops T) (a b : LatticeRange T) : LatticeRange T :=
  ⟨ops.meet a.top b.top, ops.join a.bottom b.bottom⟩

/-- `FreeL32`: the 32-atom free (power-set) lattice; `val` is the u32
payload, kept as a `Nat` bounded by `2^32` in the theorems. -/
structure FreeL32 where
  val : Nat
deriving DecidableEq

/-- All-ones u32, i.e. `!0u32`; `x ^^^ u32mask` is the u32 bitwise NOT. -/
def u32mask : Nat := 2 ^ 32 - 1

/-- `FreeL32::partial_cmp`: match on `(a & !b, !a & b)`. -/
def FreeL32.pcmp (a b : FreeL32) : Option Ordering :=
  match a.val &&& (u32mask ^^^ b.val), (u32mask ^^^ a.val) &&& b.val with
  | 0, 0 => some Ordering.eq
  | 0, _ => some Ordering.lt
  | _, 0 => some Ordering.gt
  | _, _ => none

/-- `Lattice::join` for `FreeL32`: bitwise OR. -/
def FreeL32.join (a b : FreeL32) : FreeL32 := ⟨a.val ||| b.val⟩

/-- `Lattice::meet` for `FreeL32`: bitwise AND. -/
def FreeL32.meet (a b : FreeL32) : FreeL32 := ⟨a.val &&& b.val⟩

/-- `FreeL64`: the 64-atom free lattice over a u64 payload. -/
structure FreeL64 where
  val : Nat
deriving DecidableEq

/-- All-ones u64, i.e. `!0u64`. -/
def u64mask : Nat := 2 ^ 64 - 1

/-- `FreeL64::partial_cmp`: match on `(a & !b, !a & b)`. -/
def FreeL64.pcmp (a b : FreeL64) : Option Ordering :=
  match a.val &&& (u64mask ^^^ b.val), (u64mask ^^^ a.val) &&& b.val with
  | 0, 0 => some Ordering.eq
  | 0, _ => some Ordering.lt
  | _, 0 => some Ordering.gt
  | _, _ => none

/-- `Lattice::join` for `FreeL64`: bitwise OR. -/
def FreeL64.join (a b : FreeL64) : FreeL64 := ⟨a.val ||| b.val⟩

/-- `Lattice::meet` for `FreeL64`: bitwise AND. -/
def FreeL64.meet (a b : FreeL64) : FreeL64 := ⟨a.val &&& b.val⟩

/-- The blanket `impl<T: Ord> Lattice for T` at `T = Nat`:
`partial_cmp = Some(cmp)`, `join = max`, `meet = min`. -/
def natOps : Ops Nat :=
  ⟨fun a b => some (compare a b), Nat.max, Nat.min, fun a b => a == b⟩

/-- Total `Ord`-style compare on `Bool` (`false < true`), as derived in Rust. -/
def boolCompare (a b : Bool) : Ordering :=
  match a, b with
  | false, false => Ordering.eq
  | true, true => Ordering.eq
  | false, true => Ordering.lt
  | true, false => Ordering.gt

/-- The blanket `impl<T: Ord> Lattice for T` at `T = Bool`:
`join = max = or`, `meet = min = and`. -/
def boolOps : Ops Bool :=
  ⟨fun a b => some (boolCompare a b), fun a b => a || b, fun a b => a && b,
   fun a b => a == b⟩

/-- `HiVec<T, N, FANOUT>` from src/hivecs.rs: the raw `table` plus the
pyramid `layers` of block summaries.  The const generics `N` and `FANOUT`
become explicit `Nat` arguments of the operations. -/
structure HiVec (T : Type) where
  table : List T
  layers : List (List (LatticeRange T))
deriving DecidableEq

/-- Fuelled body of `chunks`: each step consumes at least one element, so
fuel `l.length` always suffices and the zero-fuel arm is unreachable from
`chunks`. -/
def chunksF (F : Nat) : Nat → List A → List (List A)
  | _, [] => []
  | 0, _ :: _ => []
  | fuel + 1, x :: xs => (x :: xs.take (F - 1)) :: chunksF F fuel (xs.drop (F - 1))

/-- `slice::chunks(F)`: successive chunks of `F` consecutive elements, the
last possibly shorter.  Callers guard `F = 0` (Rust panics there). -/
def chunks (F : Nat) (l : List A) : List (List A) := chunksF F l.length l

/-- Map a fallible function over a list, propagating the first panic. -/
def omap (f : A → Option T) : List A → Option (List T)
  | [] => some []
  | x :: xs =>
    match f x with
    | none => none
    | some y =>
      match omap f xs with
      | none => none
      | some ys => some (y :: ys)

/-- `chunk.iter().cloned().reduce(|x, y| x.meet(y))`: `none` on an empty
chunk (the `expect("Impossible: Empty Chunk")` panic). -/
def reduceMeet (ops : Ops T) : List T → Option T
  | [] => none
  | x :: xs => some (xs.foldl ops.meet x)

/-- One layer-0 entry of `HiVec::new`: the source computes **both** `bot`
and `top` with `reduce(meet)` and returns `LatticeRange::new(top, bot)`. -/
def newChunkRange (ops : Ops T) (chunk : List T) : Option (LatticeRange T) :=
  match reduceMeet ops chunk with
  | none => none
  | some bot =>
    match reduceMeet ops chunk with
    | none => none
    | some top => some (LatticeRange.new top bot)

/-- `chunk.iter().cloned().reduce(|x, y| x.unite(y))`. -/
def reduceUnite (ops : Ops T) : List (LatticeRange T) → Option (LatticeRange T)
  | [] => none
  | x :: xs => some (xs.foldl (LatticeRange.unite ops) x)

/-- The layer-0 fold of `repair_invariant`: `fold(None, ..)` seeded by
`singleton` and extended with `expandby`, then `expect`ed. -/
def expandFold (ops : Ops T) : List T → Option (LatticeRange T)
  | [] => none
  | x :: xs => some (xs.foldl (LatticeRange.expandby ops) (LatticeRange.singleton x))

/-- The `for l in 1..N` loop of `HiVec::new`: build `k` further layers
above `prev`, each the `reduce(unite)` of `FANOUT`-chunks of the one below. -/
def upLayers (ops : Ops T) (F : Nat) : Nat → List (LatticeRange T) →
    Option (List (List (LatticeRange T)))
  | 0, _ => some []
  | k + 1, prev =>
    match omap (reduceUnite ops) (chunks F prev) with
    | none => none
    | some next =>
      match upLayers ops F k next with
      | none => none
      | some rest => some (next :: rest)

/-- `HiVec::new(table)`: layer 0 via `newChunkRange` over `FANOUT`-chunks of
the table, then `N - 1` united layers above it (the source pushes layer 0
before the `1..N` loop, so `layers` always has `max(N,1)` entries). -/
def HiVec.new (ops : Ops T) (N F : Nat) (table : List T) : Option (HiVec T) :=
  if F = 0 then none
  else
    match omap (newChunkRange ops) (chunks F table) with
    | none => none
    | some l0 =>
      match upLayers ops F (N - 1) l0 with
      | none => none
      | some rest => some ⟨table, l0 :: rest⟩

/-- Rust inclusive slice `&l[a..=b]`: panics unless `a ≤ b + 1 ∧ b < len`. -/
def sliceInc (l : List A) (a b : Nat) : Option (List A) :=
  if a ≤ b + 1 ∧ b < l.length then some ((l.take (b + 1)).drop a) else none

/-- The `for (i, r) in it.enumerate() { layer[s + i] = r }` write-back:
panics (`none`) on the first out-of-bounds index. -/
def writeAll : List A → Nat → List A → Option (List A)
  | l, _, [] => some l
  | l, s, r :: rs => if s < l.length then writeAll (l.set s r) (s + 1) rs else none

/-- The `for n in 1..N` upward-propagation loop of `repair_invariant`.
`fuel = N - 1` counts the remaining iterations; `prev` is the (already
repaired) layer below, `rest` the layers from the current one up; `lo..=hi`
is the not-yet-aligned index window into `prev`.  An exhausted `rest` with
iterations left is the `nextlayer[0]` index panic. -/
def repairUpGo (ops : Ops T) (F : Nat) : Nat → List (LatticeRange T) → Nat → Nat →
    List (List (LatticeRange T)) → Option (List (List (LatticeRange T)))
  | 0, _, _, _, rest => some rest
  | _ + 1, _, _, _, [] => none
  | fuel + 1, prev, lo, hi, cur :: rest =>
    match sliceInc prev (lo - lo % F) (hi - hi % F + F - 1) with
    | none => none
    | some sl =>
      match omap (reduceUnite ops) (chunks F sl) with
      | none => none
      | some nrs =>
        match writeAll cur ((lo - lo % F) / F) nrs with
        | none => none
        | some cur' =>
          match repairUpGo ops F fuel cur' ((lo - lo % F) / F)
              ((hi - hi % F + F - 1 + 1) / F) rest with
          | none => none
          | some rest' => some (cur' :: rest')

/-- `HiVec::repair_invariant(lo..=hi)`: align the window outward to
`FANOUT` blocks, re-fold layer 0 from the table with `expandby`, then
propagate upward with `unite`.  `F = 0` is the Rust `% 0` panic in the very
first alignment. -/
def HiVec.repair_invariant (ops : Ops T) (N F : Nat) (hv : HiVec T) (lo hi : Nat) :
    Option (HiVec T) :=
  if F = 0 then none
  else
    match sliceInc hv.table (lo - lo % F) (hi - hi % F + F - 1) with
    | none => none
    | some sl =>
      match omap (expandFold ops) (chunks F sl) with
      | none => none
      | some nrs =>
        match hv.layers with
        | [] => none
        | l0 :: rest =>
          match writeAll l0 ((lo - lo % F) / F) nrs with
          | none => none
          | some l0' =>
            match repairUpGo ops F (N - 1) l0' ((lo - lo % F) / F)
                ((hi - hi % F + F - 1 + 1) / F) rest with
            | none => none
            | some rest' => some ⟨hv.table, l0' :: rest'⟩

/-- `HiVec::len`. -/
def HiVec.len (hv : HiVec T) : Nat := hv.table.length

/-- `HiVec::get(i)`. -/
def HiVec.get (hv : HiVec T) (i : Nat) : Option T := hv.table[i]?

/-- `table.get_mut(i).map(f)`: apply `f` at index `i`, no-op out of bounds. -/
def listModify (f : T → T) : Nat → List T → List T
  | _, [] => []
  | 0, x :: xs => f x :: xs
  | n + 1, x :: xs => x :: listModify f n xs

/-- `HiVec::mutate(i, f)`: mutate the table entry, then repair the pyramid
over `i..=i`. -/
def HiVec.mutate (ops : Ops T) (N F : Nat) (hv : HiVec T) (i : Nat) (f : T → T) :
    Option (HiVec T) :=
  HiVec.repair_invariant ops N F ⟨listModify f i hv.table, hv.layers⟩ i i

/-- Panicky short-circuit `&&` on `Option Bool` (panic = `none`): the right
operand is ignored when the left one already decides or panics. -/
def andO : Option Bool → Option Bool → Option Bool
  | none, _ => none
  | some false, _ => some false
  | some true, b => b

/-- Panicky short-circuit `||` on `Option Bool`. -/
def orO : Option Bool → Option Bool → Option Bool
  | none, _ => none
  | some true, _ => some true
  | some false, b => b

/-- The shipped `HiQuery` trees from src/hivecs.rs and src/hiqueries.rs:
`EqualsQuery`, `RangeQuery` and the `AndQuery`/`OrQuery` combinators. -/
inductive HQuery (T : Type) where
  | equalsQuery (hv : HiVec T) (item : T)
  | rangeQuery (hv : HiVec T) (r : LatticeRange T)
  | andQuery (q1 q2 : HQuery T)
  | orQuery (q1 q2 : HQuery T)

/-- `HiVec::query_equals(item)`. -/
def HiVec.query_equals (hv : HiVec T) (item : T) : HQuery T :=
  HQuery.equalsQuery hv item

/-- `HiVec::query_range(r)`. -/
def HiVec.query_range (hv : HiVec T) (r : LatticeRange T) : HQuery T :=
  HQuery.rangeQuery hv r

/-- `HiQuery::length`: the `HiVec` length at the leaves; combinators return
`self.q1.length()`. -/
def qlen : HQuery T → Nat
  | HQuery.equalsQuery hv _ => hv.len
  | HQuery.rangeQuery hv _ => hv.len
  | HQuery.andQuery q1 _ => qlen q1
  | HQuery.orQuery q1 _ => qlen q1

/-- `HiQuery::query_at(i)`: leaves index the table (`expect("Out of
bounds")` = `none`), combinators short-circuit like `&&` / `||`. -/
def queryAt (ops : Ops T) : HQuery T → Nat → Option Bool
  | HQuery.equalsQuery hv item, i => (hv.get i).map fun x => ops.beq x item
  | HQuery.rangeQuery hv r, i => (hv.get i).map fun x => LatticeRange.contains ops r x
  | HQuery.andQuery q1 q2, i => andO (queryAt ops q1 i) (queryAt ops q2 i)
  | HQuery.orQuery q1 q2, i => orO (queryAt ops q1 i) (queryAt ops q2 i)

/-- `HiQuery::hiquery(layer, i)`: `query_at(i)` at layer 0; otherwise the
leaves index `layers[layer - 1][i]` — `contains(item)` for equals,
non-empty `intersect` for range — and the combinators apply `&&` / `||`. -/
def hiquery (ops : Ops T) : HQuery T → Nat → Nat → Option Bool
  | HQuery.equalsQuery hv item, layer, i =>
    if layer = 0 then queryAt ops (HQuery.equalsQuery hv item) i
    else ((hv.layers[layer - 1]?).bind fun lay => lay[i]?).map
      fun lr => LatticeRange.contains ops lr item
  | HQuery.rangeQuery hv r, layer, i =>
    if layer = 0 then queryAt ops (HQuery.rangeQuery hv r) i
    else ((hv.layers[layer - 1]?).bind fun lay => lay[i]?).map
      fun lr => !LatticeRange.isempty ops (LatticeRange.intersect ops lr r)
  | HQuery.andQuery q1 q2, layer, i =>
    andO (hiquery ops q1 layer i) (hiquery ops q2 layer i)
  | HQuery.orQuery q1 q2, layer, i =>
    orO (hiquery ops q1 layer i) (hiquery ops q2 layer i)

/-- Lengths agree at every `and`/`or` node — the `assert_eq!` the `and`/`or`
constructors place on their arguments, so every shipped tree satisfies it. -/
def WF : HQuery T → Bool
  | HQuery.equalsQuery _ _ => true
  | HQuery.rangeQuery _ _ => true
  | HQuery.andQuery q1 q2 => (qlen q1 == qlen q2) && WF q1 && WF q2
  | HQuery.orQuery q1 q2 => (qlen q1 == qlen q2) && WF q1 && WF q2

/-- Fuelled body of `findnext`'s inner ascent
`while l < N && j % FANOUT == 0 && self.hiquery(l, j)`:
`fuel = N - l` counts the remaining layers, and `j % 0` is the Rust
division-by-zero panic.  Returns the accumulated `step`. -/
def innerLoopF (ops : Ops T) (F : Nat) (q : HQuery T) :
    Nat → Nat → Nat → Nat → Option Nat
  | 0, _, _, step => some step
  | fuel + 1, l, j, step =>
    if F = 0 then none
    else if j % F = 0 then
      match hiquery ops q l j with
      | none => none
      | some true => innerLoopF ops F q fuel (l + 1) (j / F) (step * F)
      | some false => some step
    else some step

/-- The inner ascent of `findnext`, started at layer `l`. -/
def innerLoop (ops : Ops T) (N F : Nat) (q : HQuery T) (l j step : Nat) : Option Nat :=
  innerLoopF ops F q (N - l) l j step

/-- Fuelled body of the `while i < self.length()` loop of
`HiQuery::findnext`.  Every iteration advances `i` by `step ≥ 1`, so fuel
`length - i` always suffices and the zero-fuel arm coincides with the loop
exit.  The outer `Option` is a panic, the inner one the no-match `None`. -/
def findnextF (ops : Ops T) (N F : Nat) (q : HQuery T) : Nat → Nat → Option (Option Nat)
  | 0, _ => some none
  | fuel + 1, i =>
    if i < qlen q then
      match queryAt ops q i with
      | none => none
      | some true => some (some i)
      | some false =>
        match innerLoop ops N F q 0 i 1 with
        | none => none
        | some step => findnextF ops N F q fuel (i + step)
    else some none

/-- `HiQuery::findnext(i)`. -/
def findnext (ops : Ops T) (N F : Nat) (q : HQuery T) (i : Nat) : Option (Option Nat) :=
  findnextF ops N F q (qlen q - i) i

/-- The `NegatableQuery` trait surface of a leaf: its point query, length
and the type-provided structural negation.  The shipped crate declares no
negatable primitive, so the leaf stays abstract exactly as in the trait. -/
structure NegOps (L : Type) where
  length : L → Nat
  queryAt : L → Nat → Option Bool
  neg : L → L

/-- A tree of negatable queries: abstract leaves combined by
`AndQuery`/`OrQuery` (whose `NegatableQuery` impls are in src/hiqueries.rs). -/
inductive NQuery (L : Type) where
  | leafQuery (l : L)
  | andQuery (q1 q2 : NQuery L)
  | orQuery (q1 q2 : NQuery L)

/-- `HiQuery::length` on a negatable tree. -/
def nqLen (ops : NegOps A) : NQuery A → Nat
  | NQuery.leafQuery l => ops.length l
  | NQuery.andQuery q1 _ => nqLen ops q1
  | NQuery.orQuery q1 _ => nqLen ops q1

/-- `HiQuery::query_at` on a negatable tree. -/
def nqAt (ops : NegOps A) : NQuery A → Nat → Option Bool
  | NQuery.leafQuery l, i => ops.queryAt l i
  | NQuery.andQuery q1 q2, i => andO (nqAt ops q1 i) (nqAt ops q2 i)
  | NQuery.orQuery q1 q2, i => orO (nqAt ops q1 i) (nqAt ops q2 i)

/-- `NegatableQuery::negation`: an `AndQuery` negates to the `OrQuery` of
the children's negations and vice versa (the two impls in src/hiqueries.rs);
a leaf negates through its own trait method. -/
def negQ (ops : NegOps A) : NQuery A → NQuery A
  | NQuery.leafQuery l => NQuery.leafQuery (ops.neg l)
  | NQuery.andQuery q1 q2 => NQuery.orQuery (negQ ops q1) (negQ ops q2)
  | NQuery.orQuery q1 q2 => NQuery.andQuery (negQ ops q1) (negQ ops q2)

/-- A trivial negatable leaf over `Unit` (length 1, always true, negation
the identity), used to instantiate the De Morgan law concretely. -/
def unitNegOps : NegOps Unit := ⟨fun _ => 1, fun _ _ => some true, fun x => x⟩

/-! ### Helper lemmas -/

theorem listModify_length (f : T → T) : ∀ (n : Nat) (l : List T),
    (listModify f n l).length = l.length := by
  intro n l
  induction l generalizing n with
  | nil => simp [listModify]
  | cons x xs ih =>
    cases n with
    | zero => simp [listModify]
    | succ m => simpa [listModify] using ih m

theorem listModify_getElem_ne (f : T → T) : ∀ (n j : Nat) (l : List T), j ≠ n →
    (listModify f n l)[j]? = l[j]? := by
  intro n j l
  induction l generalizing n j with
  | nil => intro _; simp [listModify]
  | cons x xs ih =>
    intro hj
    cases n with
    | zero =>
      cases j with
      | zero => exact absurd rfl hj
      | succ j' => simp [listModify]
    | succ m =>
      cases j with
      | zero => simp [listModify]
      | succ j' => simpa [listModify] using ih m j' (fun h => hj (by omega))

theorem repair_table (ops : Ops T) (N F : Nat) (hv hv' : HiVec T) (lo hi : Nat)
    (h : HiVec.repair_invariant ops N F hv lo hi = some hv') : hv'.table = hv.table := by
  unfold HiVec.repair_invariant at h
  repeat' split at h
  all_goals first
    | (obtain rfl := Option.some.inj h; rfl)
    | simp at h

theorem qat_total (ops : Ops T) : ∀ q : HQuery T, WF q = true →
    ∀ i, i < qlen q → ∃ b, queryAt ops q i = some b := by
  intro q
  induction q with
  | equalsQuery hv item =>
    intro _ i hi
    simp only [queryAt, HiVec.get,
      List.getElem?_eq_getElem (show i < hv.table.length from hi), Option.map_some']
    exact ⟨_, rfl⟩
  | rangeQuery hv r =>
    intro _ i hi
    simp only [queryAt, HiVec.get,
      List.getElem?_eq_getElem (show i < hv.table.length from hi), Option.map_some']
    exact ⟨_, rfl⟩
  | andQuery q1 q2 ih1 ih2 =>
    intro hw i hi
    simp only [WF, Bool.and_eq_true, beq_iff_eq] at hw
    obtain ⟨⟨hlen, hw1⟩, hw2⟩ := hw
    obtain ⟨b1, hb1⟩ := ih1 hw1 i hi
    cases b1 with
    | false => exact ⟨false, by simp [queryAt, hb1, andO]⟩
    | true =>
      obtain ⟨b2, hb2⟩ := ih2 hw2 i (hlen ▸ hi)
      exact ⟨b2, by simp [queryAt, hb1, hb2, andO]⟩
  | orQuery q1 q2 ih1 ih2 =>
    intro hw i hi
    simp only [WF, Bool.and_eq_true, beq_iff_eq] at hw
    obtain ⟨⟨hlen, hw1⟩, hw2⟩ := hw
    obtain ⟨b1, hb1⟩ := ih1 hw1 i hi
    cases b1 with
    | true => exact ⟨true, by simp [queryAt, hb1, orO]⟩
    | false =>
      obtain ⟨b2, hb2⟩ := ih2 hw2 i (hlen ▸ hi)
      exact ⟨b2, by simp [queryAt, hb1, hb2, orO]⟩

theorem hq_zero (ops : Ops T) : ∀ (q : HQuery T) (i : Nat),
    hiquery ops q 0 i = queryAt ops q i := by
  intro q
  induction q with
  | equalsQuery hv item => intro i; simp [hiquery]
  | rangeQuery hv r => intro i; simp [hiquery]
  | andQuery q1 q2 ih1 ih2 => intro i; simp [hiquery, queryAt, ih1, ih2]
  | orQuery q1 q2 ih1 ih2 => intro i; simp [hiquery, queryAt, ih1, ih2]

theorem innerLoop_first (ops : Ops T) (N F : Nat) (q : HQuery T) (i : Nat)
    (h : queryAt ops q i = some false) :
    innerLoop ops N F q 0 i 1 = none ∨ innerLoop ops N F q 0 i 1 = some 1 := by
  unfold innerLoop
  cases N with
  | zero => exact Or.inr rfl
  | succ m =>
    by_cases hF : F = 0
    · exact Or.inl (by simp [innerLoopF, hF])
    · by_cases hmod : i % F = 0
      · exact Or.inr (by simp [innerLoopF, hF, hmod, hq_zero, h])
      · exact Or.inr (by simp [innerLoopF, hF, hmod])

theorem findnextF_spec (ops : Ops T) (N F : Nat) (q : HQuery T) (hw : WF q = true) :
    ∀ fuel i, qlen q - i ≤ fuel →
      (∀ j, findnextF ops N F q fuel i = some (some j) →
        queryAt ops q j = some true ∧ i ≤ j ∧
          ∀ k, i ≤ k → k < j → queryAt ops q k = some false) ∧
      (findnextF ops N F q fuel i = some none →
        ∀ k, i ≤ k → k < qlen q → queryAt ops q k = some false) := by
  intro fuel
  induction fuel with
  | zero =>
    intro i hle
    refine ⟨fun j hj => ?_, fun _ k hk1 hk2 => ?_⟩
    · simp [findnextF] at hj
    · omega
  | succ fuel ih =>
    intro i hle
    by_cases hi : i < qlen q
    · obtain ⟨b, hb⟩ := qat_total ops q hw i hi
      cases b with
      | true =>
        refine ⟨fun j hj => ?_, fun hnone => ?_⟩
        · simp only [findnextF, if_pos hi, hb, Option.some.injEq] at hj
          obtain rfl := hj
          exact ⟨hb, Nat.le_refl i, fun k hk1 hk2 => by omega⟩
        · simp [findnextF, if_pos hi, hb] at hnone
      | false =>
        rcases innerLoop_first ops N F q i hb with hstep | hstep
        · refine ⟨fun j hj => ?_, fun hnone => ?_⟩
          · simp [findnextF, if_pos hi, hb, hstep] at hj
          · simp [findnextF, if_pos hi, hb, hstep] at hnone
        · have heq : findnextF ops N F q (fuel + 1) i = findnextF ops N F q fuel (i + 1) := by
            simp [findnextF, if_pos hi, hb, hstep]
          have ih' := ih (i + 1) (by omega)
          refine ⟨fun j hj => ?_, fun hnone => ?_⟩
          · rw [heq] at hj
            obtain ⟨hq1, hq2, hq3⟩ := ih'.1 j hj
            refine ⟨hq1, by omega, fun k hk1 hk2 => ?_⟩
            rcases Nat.eq_or_lt_of_le hk1 with hk | hk
            · exact hk ▸ hb
            · exact hq3 k (by omega) hk2
          · rw [heq] at hnone
            intro k hk1 hk2
            rcases Nat.eq_or_lt_of_le hk1 with hk | hk
            · exact hk ▸ hb
            · exact ih'.2 hnone k (by omega) hk2
    · refine ⟨fun j hj => ?_, fun _ k hk1 hk2 => ?_⟩
      · simp [findnextF, if_neg hi] at hj
      · omega

theorem lor_land_of_sub (w a b : Nat) (ha : a < 2 ^ w)
    (h : a &&& ((2 ^ w - 1) ^^^ b) = 0) : a ||| b = b ∧ a &&& b = a := by
  have key : ∀ i, a.testBit i = true → b.testBit i = true := by
    intro i hai
    by_cases hi : i < w
    · have h0 := congrArg (fun n => n.testBit i) h
      simp only [Nat.testBit_and, Nat.testBit_xor, Nat.testBit_two_pow_sub_one,
        Nat.zero_testBit, hai, hi, decide_True, Bool.true_and, Bool.true_xor] at h0
      simpa using h0
    · exfalso
      have hlt : a < 2 ^ i :=
        lt_of_lt_of_le ha (Nat.pow_le_pow_right (by norm_num) (by omega))
      rw [Nat.testBit_lt_two_pow hlt] at hai
      exact Bool.noConfusion hai
  refine ⟨Nat.eq_of_testBit_eq fun i => ?_, Nat.eq_of_testBit_eq fun i => ?_⟩
  · rw [Nat.testBit_or]
    cases hai : a.testBit i with
    | false => simp
    | true => simp [key i hai]
  · rw [Nat.testBit_and]
    cases hai : a.testBit i with
    | false => simp [hai]
    | true => simp [key i hai]

theorem pge_iff (ops : Ops T) (u v : T) :
    pge ops u v = true ↔
      ops.pcmp u v = some Ordering.gt ∨ ops.pcmp u v = some Ordering.eq := by
  unfold pge
  rcases ops.pcmp u v with _ | o
  · simp
  · cases o <;> simp

/-! ### Claim theorems -/

/-- C1: for every shipped `HiQuery` tree (`EqualsQuery`, `RangeQuery` and
`And`/`Or` combinations, whose constructors enforce equal child lengths) and
every start index `i`: a `findnext(i) = Some(j)` satisfies `query_at(j)`,
`j ≥ i`, and `query_at(k)` is false on all of `[i, j)`; a `None` means
`query_at(k)` is false on all of `[i, length())`.  Panics do not occur on
these trees, and the result is never a panic disguised as an answer. -/
theorem c1_findnext_correct (ops : Ops T) (N F : Nat) (q : HQuery T)
    (hw : WF q = true) (i : Nat) :
    (∀ j, findnext ops N F q i = some (some j) →
      queryAt ops q j = some true ∧ i ≤ j ∧
        ∀ k, i ≤ k → k < j → queryAt ops q k = some false) ∧
    (findnext ops N F q i = some none →
      ∀ k, i ≤ k → k < qlen q → queryAt ops q k = some false) :=
  findnextF_spec ops N F q hw (qlen q - i) i (Nat.le_refl _)

/-- Witness for C1: on the singleton table `[5]` with `query_equals(5)`,
`findnext(0)` returns `Some(0)` and the theorem yields `query_at(0)`. -/
theorem c1_findnext_correct_witness :
    WF (HQuery.equalsQuery (⟨[5], [[⟨5, 5⟩]]⟩ : HiVec Nat) 5) = true ∧
    queryAt natOps (HQuery.equalsQuery (⟨[5], [[⟨5, 5⟩]]⟩ : HiVec Nat) 5) 0 = some true :=
  ⟨rfl,
    ((c1_findnext_correct natOps 1 2 (HQuery.equalsQuery ⟨[5], [[⟨5, 5⟩]]⟩ 5) rfl 0).1
      0 rfl).1⟩

/-- C2 (code bug): on the well-formed `HiVec<bool, 1, 2>` with table
`[true, false]` and layer-0 summary `{top: true, bottom: false}` — exactly
the `expandby` fold of its block, as the first conjunct certifies —
`query_equals(true)` matches at index 0 inside the block `[0, 2)`, yet
`hiquery(1, 0)` returns `false`: `contains` computes
`top >= item && bottom >= item`, so bulk soundness fails. -/
theorem c2_bulk_soundness_violated :
    expandFold boolOps [true, false] = some ⟨true, false⟩ ∧
    queryAt boolOps (HQuery.equalsQuery ⟨[true, false], [[⟨true, false⟩]]⟩ true) 0 =
      some true ∧
    hiquery boolOps (HQuery.equalsQuery ⟨[true, false], [[⟨true, false⟩]]⟩ true) 1 0 =
      some false :=
  ⟨rfl, rfl, rfl⟩

/-- C3 (code bug): `mutate` does not terminate normally on tail blocks.
On the `HiVec<u32, 1, 2>` built by `new` from `[0, 0, 0]`, `mutate(2, ..)`
panics: `repair_invariant` rounds `2..=2` up to `2..=3` and slices
`table[2..=3]` out of bounds (length 3). -/
theorem c3_mutate_tail_panics :
    HiVec.new natOps 1 2 [0, 0, 0] = some ⟨[0, 0, 0], [[⟨0, 0⟩, ⟨0, 0⟩]]⟩ ∧
    HiVec.mutate natOps 1 2 ⟨[0, 0, 0], [[⟨0, 0⟩, ⟨0, 0⟩]]⟩ 2 (fun _ => 1) = none :=
  ⟨rfl, rfl⟩

/-- C4 (code bug): `HiVec::new` on `[1, 2]` with `FANOUT = 2` produces the
layer-0 entry `{top: 1, bottom: 1}` — both endpoints are the `meet` fold —
whereas the `expandby` fold of the same chunk is `{top: 2, bottom: 1}`. -/
theorem c4_new_top_is_meet_fold :
    HiVec.new natOps 1 2 [1, 2] = some ⟨[1, 2], [[⟨1, 1⟩]]⟩ ∧
    expandFold natOps [1, 2] = some ⟨2, 1⟩ :=
  ⟨rfl, rfl⟩

/-- Counterexample to C5: over `Nat` with the total order, the range
`{top: 2, bottom: 0}` has `bottom ≤ 1 ≤ top`, yet `contains(1)` returns
`false` (because it tests `bottom >= x` rather than `bottom ≤ x`). -/
theorem c5_contains_counterexample :
    LatticeRange.contains natOps (LatticeRange.new 2 0) 1 = false ∧
    ple natOps 0 1 = true ∧ ple natOps 1 2 = true :=
  ⟨rfl, rfl, rfl⟩

/-- C5 (amended): `contains(x)` returns `true` iff `top ≥ x` **and**
`bottom ≥ x` in the lattice's declared `partial_cmp` order. -/
theorem c5_contains_amended (ops : Ops T) (r : LatticeRange T) (x : T) :
    LatticeRange.contains ops r x = true ↔
      (ops.pcmp r.top x = some Ordering.gt ∨ ops.pcmp r.top x = some Ordering.eq) ∧
      (ops.pcmp r.bottom x = some Ordering.gt ∨ ops.pcmp r.bottom x = some Ordering.eq) := by
  rw [LatticeRange.contains, Bool.and_eq_true, pge_iff, pge_iff]

/-- Counterexample to C6: over `Nat`, the range `{top: 1, bottom: 0}` has
`bottom ≤ top` (so it is semantically non-empty), yet `isempty()` returns
`true` — the code computes `top >= bottom`, the opposite condition. -/
theorem c6_isempty_counterexample :
    LatticeRange.isempty natOps (LatticeRange.new 1 0) = true ∧
    ple natOps 0 1 = true :=
  ⟨rfl, rfl⟩

/-- C6 (amended): `isempty()` returns `true` iff `top ≥ bottom` in the
lattice's declared `partial_cmp` order — the opposite of the semantic
emptiness the spec describes. -/
theorem c6_isempty_amended (ops : Ops T) (r : LatticeRange T) :
    LatticeRange.isempty ops r = true ↔
      ops.pcmp r.top r.bottom = some Ordering.gt ∨
        ops.pcmp r.top r.bottom = some Ordering.eq := by
  rw [LatticeRange.isempty, pge_iff]

/-- C7: for `FreeL32` and `FreeL64` (payloads in u32/u64 range):
`partial_cmp` returning `Less` forces `a.join(b) = b` and `a.meet(b) = a`,
and `partial_cmp` returns `Equal`/`Less`/`Greater`/`None` exactly by the
zero-pattern of `only_a = a & !b` and `only_b = !a & b`. -/
theorem c7_freel_order :
    (∀ a b : FreeL32, a.val < 2 ^ 32 → b.val < 2 ^ 32 →
      (FreeL32.pcmp a b = some Ordering.lt →
        FreeL32.join a b = b ∧ FreeL32.meet a b = a) ∧
      (FreeL32.pcmp a b = some Ordering.eq ↔
        a.val &&& (u32mask ^^^ b.val) = 0 ∧ (u32mask ^^^ a.val) &&& b.val = 0) ∧
      (FreeL32.pcmp a b = some Ordering.lt ↔
        a.val &&& (u32mask ^^^ b.val) = 0 ∧ (u32mask ^^^ a.val) &&& b.val ≠ 0) ∧
      (FreeL32.pcmp a b = some Ordering.gt ↔
        a.val &&& (u32mask ^^^ b.val) ≠ 0 ∧ (u32mask ^^^ a.val) &&& b.val = 0) ∧
      (FreeL32.pcmp a b = none ↔
        a.val &&& (u32mask ^^^ b.val) ≠ 0 ∧ (u32mask ^^^ a.val) &&& b.val ≠ 0)) ∧
    (∀ a b : FreeL64, a.val < 2 ^ 64 → b.val < 2 ^ 64 →
      (FreeL64.pcmp a b = some Ordering.lt →
        FreeL64.join a b = b ∧ FreeL64.meet a b = a) ∧
      (FreeL64.pcmp a b = some Ordering.eq ↔
        a.val &&& (u64mask ^^^ b.val) = 0 ∧ (u64mask ^^^ a.val) &&& b.val = 0) ∧
      (FreeL64.pcmp a b = some Ordering.lt ↔
        a.val &&& (u64mask ^^^ b.val) = 0 ∧ (u64mask ^^^ a.val) &&& b.val ≠ 0) ∧
      (FreeL64.pcmp a b = some Ordering.gt ↔
        a.val &&& (u64mask ^^^ b.val) ≠ 0 ∧ (u64mask ^^^ a.val) &&& b.val = 0) ∧
      (FreeL64.pcmp a b = none ↔
        a.val &&& (u64mask ^^^ b.val) ≠ 0 ∧ (u64mask ^^^ a.val) &&& b.val ≠ 0)) := by
  constructor
  · intro a b ha hb
    obtain ⟨av⟩ := a
    obtain ⟨bv⟩ := b
    rcases h1 : av &&& (u32mask ^^^ bv) with _ | n
    · rcases h2 : (u32mask ^^^ av) &&& bv with _ | m
      · have hp : FreeL32.pcmp ⟨av⟩ ⟨bv⟩ = some Ordering.eq := by
          simp [FreeL32.pcmp, h1, h2]
        refine ⟨?_, ?_, ?_, ?_, ?_⟩ <;> rw [hp] <;> simp [h1, h2]
      · have hp : FreeL32.pcmp ⟨av⟩ ⟨bv⟩ = some Ordering.lt := by
          simp [FreeL32.pcmp, h1, h2]
        have hh := lor_land_of_sub 32 av bv ha h1
        refine ⟨fun _ => ⟨congrArg FreeL32.mk hh.1, congrArg FreeL32.mk hh.2⟩,
          ?_, ?_, ?_, ?_⟩ <;> rw [hp] <;> simp [h1, h2]
    · rcases h2 : (u32mask ^^^ av) &&& bv with _ | m
      · have hp : FreeL32.pcmp ⟨av⟩ ⟨bv⟩ = some Ordering.gt := by
          simp [FreeL32.pcmp, h1, h2]
        refine ⟨?_, ?_, ?_, ?_, ?_⟩ <;> rw [hp] <;> simp [h1, h2]
      · have hp : FreeL32.pcmp ⟨av⟩ ⟨bv⟩ = none := by
          simp [FreeL32.pcmp, h1, h2]
        refine ⟨?_, ?_, ?_, ?_, ?_⟩ <;> rw [hp] <;> simp [h1, h2]
  · intro a b ha hb
    obtain ⟨av⟩ := a
    obtain ⟨bv⟩ := b
    rcases h1 : av &&& (u64mask ^^^ bv) with _ | n
    · rcases h2 : (u64mask ^^^ av) &&& bv with _ | m
      · have hp : FreeL64.pcmp ⟨av⟩ ⟨bv⟩ = some Ordering.eq := by
          simp [FreeL64.pcmp, h1, h2]
        refine ⟨?_, ?_, ?_, ?_, ?_⟩ <;> rw [hp] <;> simp [h1, h2]
      · have hp : FreeL64.pcmp ⟨av⟩ ⟨bv⟩ = some Ordering.lt := by
          simp [FreeL64.pcmp, h1, h2]
        have hh := lor_land_of_sub 64 av bv ha h1
        refine ⟨fun _ => ⟨congrArg FreeL64.mk hh.1, congrArg FreeL64.mk hh.2⟩,
          ?_, ?_, ?_, ?_⟩ <;> rw [hp] <;> simp [h1, h2]
    · rcases h2 : (u64mask ^^^ av) &&& bv with _ | m
      · have hp : FreeL64.pcmp ⟨av⟩ ⟨bv⟩ = some Ordering.gt := by
          simp [FreeL64.pcmp, h1, h2]
        refine ⟨?_, ?_, ?_, ?_, ?_⟩ <;> rw [hp] <;> simp [h1, h2]
      · have hp : FreeL64.pcmp ⟨av⟩ ⟨bv⟩ = none := by
          simp [FreeL64.pcmp, h1, h2]
        refine ⟨?_, ?_, ?_, ?_, ?_⟩ <;> rw [hp] <;> simp [h1, h2]

/-- Witness for C7: `a = 1`, `b = 3` compare as `Less` in both widths, and
the theorem yields `join = b` and `meet = a` there. -/
theorem c7_freel_order_witness :
    FreeL32.join ⟨1⟩ ⟨3⟩ = ⟨3⟩ ∧ FreeL32.meet ⟨1⟩ ⟨3⟩ = ⟨1⟩ ∧
    FreeL64.join ⟨1⟩ ⟨3⟩ = ⟨3⟩ ∧ FreeL64.meet ⟨1⟩ ⟨3⟩ = ⟨1⟩ := by
  have h32 := (c7_freel_order.1 ⟨1⟩ ⟨3⟩ (by decide) (by decide)).1 (by decide)
  have h64 := (c7_freel_order.2 ⟨1⟩ ⟨3⟩ (by decide) (by decide)).1 (by decide)
  exact ⟨h32.1, h32.2, h64.1, h64.2⟩

/-- C8: De Morgan push-down of `NegatableQuery::negation` — the negation of
an `AndQuery` agrees pointwise with the `OrQuery` of the negations, and
dually, for negatable children of equal length at any in-range index. -/
theorem c8_demorgan (L : Type) (ops : NegOps L) (p q : NQuery L) (i : Nat)
    (hlen : nqLen ops p = nqLen ops q) (hi : i < nqLen ops p) :
    nqAt ops (negQ ops (NQuery.andQuery p q)) i =
      nqAt ops (NQuery.orQuery (negQ ops p) (negQ ops q)) i ∧
    nqAt ops (negQ ops (NQuery.orQuery p q)) i =
      nqAt ops (NQuery.andQuery (negQ ops p) (negQ ops q)) i :=
  ⟨rfl, rfl⟩

/-- Witness for C8: two trivial length-1 leaves at index 0. -/
theorem c8_demorgan_witness :
    nqAt unitNegOps
        (negQ unitNegOps (NQuery.andQuery (NQuery.leafQuery ()) (NQuery.leafQuery ()))) 0 =
      nqAt unitNegOps
        (NQuery.orQuery (negQ unitNegOps (NQuery.leafQuery ()))
          (negQ unitNegOps (NQuery.leafQuery ()))) 0 :=
  (c8_demorgan Unit unitNegOps (NQuery.leafQuery ()) (NQuery.leafQuery ()) 0 rfl
    (by decide)).1

/-- C9: `query_at(i)` with `i ≥ length()` on an `EqualsQuery` or
`RangeQuery` is the `expect("Out of bounds")` panic (`none` in the model) —
never a boolean, and distinct from the in-band no-match `Some(None)` that
`findnext` returns. -/
theorem c9_query_at_oob (ops : Ops T) (hv : HiVec T) (item : T) (r : LatticeRange T)
    (i : Nat) (h : hv.len ≤ i) :
    queryAt ops (HQuery.equalsQuery hv item) i = none ∧
    queryAt ops (HQuery.rangeQuery hv r) i = none ∧
    (∀ b : Bool, queryAt ops (HQuery.equalsQuery hv item) i ≠ some b) ∧
    (∀ b : Bool, queryAt ops (HQuery.rangeQuery hv r) i ≠ some b) := by
  have hnone : hv.table[i]? = none := List.getElem?_eq_none h
  refine ⟨by simp [queryAt, HiVec.get, hnone], by simp [queryAt, HiVec.get, hnone], ?_, ?_⟩
  · intro b
    simp [queryAt, HiVec.get, hnone]
  · intro b
    simp [queryAt, HiVec.get, hnone]

/-- Witness for C9: index 3 on a length-1 table panics. -/
theorem c9_query_at_oob_witness :
    queryAt natOps (HQuery.equalsQuery (⟨[5], [[⟨5, 5⟩]]⟩ : HiVec Nat) 5) 3 = none :=
  (c9_query_at_oob natOps ⟨[5], [[⟨5, 5⟩]]⟩ 5 (LatticeRange.new 5 5) 3 (by decide)).1

/-- C10: frame property of `mutate` — whenever `mutate(i, f)` returns, the
length is unchanged and every table entry at an index `j ≠ i` reads back
unchanged; only entry `i` and the summary layers may differ. -/
theorem c10_mutate_frame (ops : Ops T) (N F : Nat) (hv hv' : HiVec T) (i : Nat)
    (f : T → T) (h : HiVec.mutate ops N F hv i f = some hv') :
    hv'.len = hv.len ∧ ∀ j, j ≠ i → hv'.get j = hv.get j := by
  unfold HiVec.mutate at h
  have ht := repair_table ops N F _ hv' i i h
  constructor
  · show hv'.table.length = hv.table.length
    rw [ht]
    exact listModify_length f i hv.table
  · intro j hj
    show hv'.table[j]? = hv.table[j]?
    rw [ht]
    exact listModify_getElem_ne f i j hv.table hj

/-- Witness for C10: a successful `mutate(0, |x| *x = 5)` on `[1,2,3,4]`
with `N = 1`, `FANOUT = 2` keeps the length and the entry at index 1. -/
theorem c10_mutate_frame_witness :
    HiVec.len (⟨[5, 2, 3, 4], [[⟨5, 2⟩, ⟨3, 3⟩]]⟩ : HiVec Nat) =
      HiVec.len (⟨[1, 2, 3, 4], [[⟨1, 1⟩, ⟨3, 3⟩]]⟩ : HiVec Nat) ∧
    HiVec.get (⟨[5, 2, 3, 4], [[⟨5, 2⟩, ⟨3, 3⟩]]⟩ : HiVec Nat) 1 =
      HiVec.get (⟨[1, 2, 3, 4], [[⟨1, 1⟩, ⟨3, 3⟩]]⟩ : HiVec Nat) 1 :=
  have h := c10_mutate_frame natOps 1 2 ⟨[1, 2, 3, 4], [[⟨1, 1⟩, ⟨3, 3⟩]]⟩
    ⟨[5, 2, 3, 4], [[⟨5, 2⟩, ⟨3, 3⟩]]⟩ 0 (fun _ => 5) rfl
  ⟨h.1, h.2 1 (by decide)⟩
